import Mathlib

/-!
Verification of the hierarchical state machine engine in `src/hsm.h`
(Heinzmann-style template HSM).

Embedding: a state of the C++ hierarchy is a class whose chain of base
classes encodes its ancestor path.  We represent a state by that chain,
as a `List Nat` of state ids `[self, parent, …, root]`; the abstract
class `HsmState<THost>` (the base of the top state) is the empty list.
Under this representation, for states of one hierarchy,
`std::is_base_of<B, D>` is the list-suffix relation `B <:+ D` and
`std::is_same<A, B>` is list equality.  The compile-time recursions of
`Tran` and `InitialTran` (which walk `Base` typedefs, i.e. list tails)
become structural recursions on the chain, and the run-time effect of a
transition is the trace of exit/entry actions it performs, recorded as
a list of action tags, together with the final value of the machine's
`state_` field (the current leaf chain).
-/

namespace Hsm

/-- An observable action of the engine: the exit or entry handler of the
state with the given id. -/
inductive Act where
  | exit : Nat → Act
  | entry : Nat → Act
deriving DecidableEq, Repr

/-- Tag test: is this action an exit action? -/
def Act.isExit : Act → Bool
  | .exit _ => true
  | .entry _ => false

/-- Tag test: is this action an entry action? -/
def Act.isEntry : Act → Bool
  | .exit _ => false
  | .entry _ => true

/-- Stop condition of `Tran::exitActions` (src/hsm.h line 266):
`exit_stop = eCB_T && eCB_S && !(e_S_EQ_T && e_CB_EQ_S)` where
`CurrentBase = cb`, `eCB_T = is_base_of<CurrentBase,TTarget>`,
`eCB_S = is_base_of<CurrentBase,TSource>`,
`e_S_EQ_T = is_same<TSource,TTarget>`,
`e_CB_EQ_S = is_same<CurrentBase,TSource>`. -/
def exitStop (cb s t : List Nat) : Bool :=
  decide (cb <:+ t) && decide (cb <:+ s) && !(decide (s = t) && decide (cb = s))

/-- Stop condition of `Tran::entryActions` (src/hsm.h line 268):
`entry_stop = eCB_S`. -/
def entryStop (cb s : List Nat) : Bool :=
  decide (cb <:+ s)

/-- Flag passed by `Tran::~Tran` to the entry recursion
(src/hsm.h line 267): `entry_stop_initial = eT_S && !e_S_EQ_T`. -/
def entryStopInitial (s t : List Nat) : Bool :=
  decide (t <:+ s) && !(decide (s = t))

/-- Exit-action sequence of `Tran<TCurrent,TSource,TTarget>::exitActions`
(src/hsm.h lines 276-283): with flag `false` it runs `TCurrent::exit`
and recurses at `CurrentBase` with flag `exit_stop`; with flag `true` it
does nothing.  Returns the ids whose exit handlers run, in order. -/
def exitSeq : List Nat → List Nat → List Nat → Bool → List Nat
  | _, _, _, true => []
  | [], _, _, false => []
  | x :: cb, s, t, false => x :: exitSeq cb s t (exitStop cb s t)

/-- Entry-action sequence of `Tran<TCurrent,TSource,TTarget>::entryActions`
(src/hsm.h lines 285-292): with flag `false` it recurses at `CurrentBase`
with flag `entry_stop`, then runs `TCurrent::entry`.  Returns the ids
whose entry handlers run, in order. -/
def entrySeq : List Nat → List Nat → Bool → List Nat
  | _, _, true => []
  | [], _, false => []
  | x :: cb, s, false => entrySeq cb s (entryStop cb s) ++ [x]

/-- Stop condition of `InitialTran::entryActions` (src/hsm.h line 329):
`entry_stop = e_CB_EQ_S`. -/
def initEntryStop (cb s : List Nat) : Bool :=
  decide (cb = s)

/-- Entry-action sequence of `InitialTran<TCurrent,TSource,TTarget>::entryActions`
(src/hsm.h lines 332-339). -/
def initEntrySeq : List Nat → List Nat → Bool → List Nat
  | _, _, true => []
  | [], _, false => []
  | x :: cb, s, false => initEntrySeq cb s (initEntryStop cb s) ++ [x]

/-- A configured state hierarchy, as the transition engine sees it at
run time.  `isLeaf c` tells whether the state with chain `c` is a
`LeafState`; `initOf c` is, for a composite, the chain of the
`INITSTATE` named in its `HSM_INITIAL` macro expansion; `handlers c e`
is, for state chain `c`, the target chain its event handler names for
event `e` (`none` when the handler delegates to `Base::handle`). -/
structure Machine where
  isLeaf : List Nat → Bool
  initOf : List Nat → List Nat
  handlers : List Nat → Nat → Option (List Nat)

/-- Effect of `TTarget::initial(host)`: for a leaf it assigns
`host.state_ = &obj_` (src/hsm.h lines 204-207); for a composite the
`HSM_INITIAL` macro runs `InitialTran<This,This,INITSTATE>` whose
destructor (src/hsm.h lines 345-350) runs the `InitialTran` entry
recursion from `INITSTATE` with flag `false` and then
`INITSTATE::initial`.  Fuel bounds the descent; a configuration whose
default-child chain does not reach a leaf yields `none` (in C++ this
manifests as unbounded template recursion and cannot compile).
Returns the entry ids traversed and the final current-leaf chain. -/
def descend (M : Machine) : Nat → List Nat → List Nat × Option (List Nat)
  | 0, _ => ([], none)
  | fuel + 1, x =>
    if M.isLeaf x then ([], some x)
    else
      let y := M.initOf x
      let r := descend M fuel y
      (initEntrySeq y x false ++ r.1, r.2)

/-- Full effect of a `Tran<TCurrent,TSource,TTarget>` object whose scope
covers one transition: the constructor (src/hsm.h lines 294-297) runs
`exitActions` from the current leaf with flag `false`; the destructor
(src/hsm.h lines 299-304) runs `entryActions` from `TTarget` with flag
`entry_stop_initial` and then `TTarget::initial`.  `cur` is the current
leaf chain (`TCurrent`), `s` the handling state's chain (`TSource`),
`t` the target chain (`TTarget`). -/
def tranExec (M : Machine) (fuel : Nat) (cur s t : List Nat) :
    List Act × Option (List Nat) :=
  let ex := exitSeq cur s t false
  let en := entrySeq t s (entryStopInitial s t)
  let d := descend M fuel t
  (ex.map Act.exit ++ en.map Act.entry ++ d.1.map Act.entry, d.2)

/-- Handler-chain walk of event dispatch.  The current leaf's virtual
`handler` calls `handle(host, *this)`; each state's default `handle`
delegates to `Base::handle` (src/hsm.h lines 178-182, 82-86), and the
top state's `handle` does nothing (src/hsm.h lines 130-131).  A state
whose handler maps the event runs `Tran<TCurrent,This,TARGET>`.
Modelled from the spec: the `handled` boolean result of `dispatch()`
(spec section 4.4) — the dispatch shell that invokes `state_->handler`
and reports whether any state consumed the event is host-application
code, not part of `src/hsm.h`.  Returns
(handled, action trace, new current chain). -/
def dispatchRec (M : Machine) (fuel : Nat) (cur : List Nat) (e : Nat) :
    List Nat → Bool × List Act × Option (List Nat)
  | [] => (false, [], some cur)
  | [_] => (false, [], some cur)
  | x :: y :: cb =>
    match M.handlers (x :: y :: cb) e with
    | some t => (true, tranExec M fuel cur (x :: y :: cb) t)
    | none => dispatchRec M fuel cur e (y :: cb)

/-- One call of `dispatch(machine, event)`: walk the handler chain
upward from the current leaf. -/
def dispatch (M : Machine) (fuel : Nat) (cur : List Nat) (e : Nat) :
    Bool × List Act × Option (List Nat) :=
  dispatchRec M fuel cur e cur

/-- The state-class hierarchy exactly as generated by the templates of
`src/hsm.h`: the top state `CompositeState<THost,0,HsmState<THost>>`
(lines 116-121), a composite `CompositeState<THost,id,TBase>`
(lines 67-73), and a leaf `LeafState<THost,id,TBase>` (lines 163-169),
each non-top state naming its base (parent) state. -/
inductive StTy where
  | top : StTy
  | comp : Nat → StTy → StTy
  | leaf : Nat → StTy → StTy
deriving DecidableEq, Repr

/-- Parent (base class) of a state type; the top state has none that is
itself a state. -/
def StTy.base? : StTy → Option StTy
  | .top => none
  | .comp _ b => some b
  | .leaf _ b => some b

/-- Ancestor path of a state type: the state itself followed by its
chain of base states, ending at the top state. -/
def StTy.path : StTy → List StTy
  | .top => [.top]
  | .comp i b => .comp i b :: b.path
  | .leaf i b => .leaf i b :: b.path

/-- Nesting depth of a state type, counted as the number of states on
its ancestor chain (the convention of spec section 8, under which a
path "has length equal to its depth" while including the state itself):
the top state has depth 1. -/
def StTy.depth : StTy → Nat
  | .top => 1
  | .comp _ b => b.depth + 1
  | .leaf _ b => b.depth + 1

/-!
Registry and configuration validation.

Modelled from the spec: `src/hsm.h` has no run-time registry — the
hierarchy is fixed by template arguments and misconfiguration is a
compile-time failure — so the declaration API of spec section 4.1
(`declare`, `setDefaultChild`, `finalize()` with `ConfigurationError`)
is absent from the source.  The definitions below follow the spec's
words: a list of state descriptors, validated by `finalize`, which
fails exactly on a reused id, an unknown parent id, a cycle in the
parent graph, a composite lacking a default child, or a default-child
chain that does not terminate in a leaf.
-/

/-- Modelled from the spec: one state descriptor of section 3's data
model (`declare` / `declareLeaf` / `setDefaultChild` of spec 4.1). -/
structure StateDecl where
  sid : Nat
  parent : Option Nat
  isLeaf : Bool
  defaultChild : Option Nat
deriving DecidableEq, Repr

/-- Modelled from the spec: the fatal validation failure of spec 7. -/
inductive ConfigError where
  | configurationError : ConfigError
deriving DecidableEq, Repr

/-- The declared state ids of a registry. -/
def idsOf (r : List StateDecl) : List Nat := r.map (·.sid)

/-- Look a state descriptor up by id. -/
def lookupSt (r : List StateDecl) (i : Nat) : Option StateDecl :=
  r.find? (fun d => d.sid == i)

/-- Fueled walk along a deterministic successor function.
`next i = none` means the step is broken (unknown id, missing link);
`next i = some none` means `i` is terminal; `next i = some (some j)`
steps to `j`.  A successful walk returns the visited ids in order. -/
def walk (next : Nat → Option (Option Nat)) : Nat → Nat → Option (List Nat)
  | 0, _ => none
  | n + 1, i =>
    match next i with
    | none => none
    | some none => some [i]
    | some (some j) =>
      match walk next n j with
      | none => none
      | some l => some (i :: l)

/-- Parent step for the ancestor walk: a root descriptor is terminal. -/
def parentNext (r : List StateDecl) (i : Nat) : Option (Option Nat) :=
  (lookupSt r i).map (fun d => d.parent)

/-- Default-child step for the descent walk: a leaf is terminal, a
composite without a default child is broken. -/
def childNext (r : List StateDecl) (i : Nat) : Option (Option Nat) :=
  match lookupSt r i with
  | none => none
  | some d =>
    if d.isLeaf then some none
    else
      match d.defaultChild with
      | none => none
      | some c => some (some c)

/-- Modelled from the spec: `finalize()` of spec 4.1.  Validates the
registry: ids must be unique, every state's ancestor walk must reach a
root, and every composite's default-child walk must reach a leaf; walks
get fuel `r.length`, enough for any acyclic configuration. -/
def finalize (r : List StateDecl) : Except ConfigError (List StateDecl) :=
  if (decide (idsOf r).Nodup
      && r.all (fun d => (walk (parentNext r) r.length d.sid).isSome)
      && r.all (fun d => d.isLeaf || (walk (childNext r) r.length d.sid).isSome))
  then .ok r
  else .error .configurationError

/-- Modelled from the spec: `start(machine)` may only run on a
finalized registry (spec 4.4, 7); with an invalid configuration the
engine never starts. -/
def startR (r : List StateDecl) : Option (List StateDecl) :=
  match finalize r with
  | .ok v => some v
  | .error _ => none

/-- Spec 7: a reused state id. -/
def ReusedId (r : List StateDecl) : Prop := ¬ (idsOf r).Nodup

/-- Spec 7: a parent id that is not a declared state. -/
def UnknownParent (r : List StateDecl) : Prop :=
  ∃ d ∈ r, ∃ p, d.parent = some p ∧ p ∉ idsOf r

/-- Spec 7: a cycle in the parent graph — some state's ancestor walk
never reaches a root, however much fuel it gets. -/
def ParentChainBad (r : List StateDecl) : Prop :=
  ∃ d ∈ r, ∀ n, walk (parentNext r) n d.sid = none

/-- Spec 7: a composite missing a default child. -/
def MissingChild (r : List StateDecl) : Prop :=
  ∃ d ∈ r, d.isLeaf = false ∧ d.defaultChild = none

/-- Spec 7: a default-child chain that does not terminate in a leaf,
however much fuel the descent walk gets. -/
def ChildChainBad (r : List StateDecl) : Prop :=
  ∃ d ∈ r, d.isLeaf = false ∧ ∀ n, walk (childNext r) n d.sid = none

/-- The invalid configurations named by spec 4.1 and 7. -/
def Invalid (r : List StateDecl) : Prop :=
  ReusedId r ∨ UnknownParent r ∨ ParentChainBad r ∨ MissingChild r ∨ ChildChainBad r

/-- Boolean well-formedness of a default-child chain seeded below state
`x`: each listed id is the direct default child of the previous state,
every intermediate state is a composite, and the final state is a leaf. -/
def isChainB (M : Machine) : List Nat → List Nat → Bool
  | x, [] => M.isLeaf x
  | x, a :: rest => !M.isLeaf x && (M.initOf x == a :: x) && isChainB M (a :: x) rest

/-- Chain endpoint: the state reached after pushing the listed default
children onto `x`. -/
def chainEnd : List Nat → List Nat → List Nat
  | x, [] => x
  | x, a :: rest => chainEnd (a :: x) rest

/-- A one-leaf machine used to instantiate theorems: the single leaf
`[5,0]` under the root, no handlers. -/
def M0 : Machine :=
  { isLeaf := fun c => c == [5, 0]
    initOf := fun _ => []
    handlers := fun _ _ => none }

/-- A registry with a reused id, used to instantiate theorems. -/
def rDup : List StateDecl :=
  [⟨1, none, true, none⟩, ⟨1, none, true, none⟩]

/-- A two-state machine used to instantiate theorems: composite root
`[0]` whose initial transition targets the leaf `[1,0]`. -/
def M1 : Machine :=
  { isLeaf := fun c => c == [1, 0]
    initOf := fun c => if c == [0] then [1, 0] else []
    handlers := fun _ _ => none }

/-! Helper lemmas. -/

/-- Cancelling a shared tail preserves the suffix relation. -/
theorem suffix_append_cancel {u v l : List Nat} (h : u ++ l <:+ v ++ l) :
    u <:+ v := by
  obtain ⟨w, hw⟩ := h
  rw [← List.append_assoc] at hw
  exact ⟨w, List.append_cancel_right hw⟩

/-- A nonempty suffix has the same last element as the whole list. -/
theorem getLast?_eq_of_suffix {u v : List Nat} (h : u <:+ v) (hu : u ≠ []) :
    u.getLast? = v.getLast? := by
  obtain ⟨w, rfl⟩ := h
  exact (List.getLast?_append_of_ne_nil w hu).symm

/-- Equation lemma: the stop flag ends the exit recursion. -/
theorem exitSeq_stop (c s t : List Nat) : exitSeq c s t true = [] := by
  cases c <;> rfl

/-- Equation lemma: one step of the exit recursion. -/
theorem exitSeq_cons (x : Nat) (cb s t : List Nat) :
    exitSeq (x :: cb) s t false = x :: exitSeq cb s t (exitStop cb s t) := rfl

/-- Equation lemma: the stop flag ends the entry recursion. -/
theorem entrySeq_stop (c s : List Nat) : entrySeq c s true = [] := by
  cases c <;> rfl

/-- Equation lemma: one step of the entry recursion. -/
theorem entrySeq_cons (x : Nat) (cb s : List Nat) :
    entrySeq (x :: cb) s false = entrySeq cb s (entryStop cb s) ++ [x] := rfl

/-- Equation lemma: the stop flag ends the initial-entry recursion. -/
theorem initEntrySeq_stop (c s : List Nat) : initEntrySeq c s true = [] := by
  cases c <;> rfl

/-- Equation lemma: one step of the initial-entry recursion. -/
theorem initEntrySeq_cons (x : Nat) (cb s : List Nat) :
    initEntrySeq (x :: cb) s false = initEntrySeq cb s (initEntryStop cb s) ++ [x] := rfl

/-- The exit recursion started below `s` emits exactly the segment `u`
of `s`'s chain that lies strictly before the first common ancestor
chain `l`, provided no longer suffix of `s`'s chain is also an ancestor
chain of the target. -/
theorem exitSeq_eq_of (s t l : List Nat) :
    ∀ u, u ≠ [] → l <:+ s → l <:+ t → s ≠ t →
      (∀ u', u' <:+ u → u' ≠ [] → ¬ (u' ++ l <:+ t)) →
      exitSeq (u ++ l) s t false = u := by
  intro u
  induction u with
  | nil => intro h; exact absurd rfl h
  | cons a u' ih =>
    intro _ hls hlt hst hnot
    cases u' with
    | nil =>
      rw [List.singleton_append, exitSeq_cons]
      have h1 : exitStop l s t = true := by
        simp only [exitStop, Bool.and_eq_true, Bool.not_eq_true',
          Bool.and_eq_false_iff, decide_eq_true_eq, decide_eq_false_iff_not]
        exact ⟨⟨hlt, hls⟩, Or.inl hst⟩
      rw [h1, exitSeq_stop]
    | cons b u'' =>
      rw [List.cons_append, exitSeq_cons]
      have h1 : exitStop ((b :: u'') ++ l) s t = false := by
        have hne : ¬ ((b :: u'') ++ l <:+ t) :=
          hnot (b :: u'') (List.suffix_cons a (b :: u'')) (by simp)
        simp only [exitStop, Bool.and_eq_false_iff, decide_eq_false_iff_not]
        exact Or.inl (Or.inl hne)
      rw [h1]
      have := ih (by simp) hls hlt hst
        (fun u' hu' hne' => hnot u' (hu'.trans (List.suffix_cons a (b :: u''))) hne')
      rw [this]

/-- The entry recursion started at the target's chain `v ++ l` emits
exactly the segment `v` strictly below the first ancestor chain `l` of
the source, reversed to parent-to-child order. -/
theorem entrySeq_eq_of (s l : List Nat) :
    ∀ v, v ≠ [] → l <:+ s →
      (∀ v', v' <:+ v → v' ≠ [] → ¬ (v' ++ l <:+ s)) →
      entrySeq (v ++ l) s false = v.reverse := by
  intro v
  induction v with
  | nil => intro h; exact absurd rfl h
  | cons a v' ih =>
    intro _ hls hnot
    cases v' with
    | nil =>
      rw [List.singleton_append, entrySeq_cons]
      have h1 : entryStop l s = true := by
        simpa only [entryStop, decide_eq_true_eq] using hls
      rw [h1, entrySeq_stop, List.nil_append, List.reverse_singleton]
    | cons b v'' =>
      rw [List.cons_append, entrySeq_cons]
      have h1 : entryStop ((b :: v'') ++ l) s = false := by
        have hne : ¬ ((b :: v'') ++ l <:+ s) :=
          hnot (b :: v'') (List.suffix_cons a (b :: v'')) (by simp)
        simpa only [entryStop, decide_eq_false_iff_not] using hne
      rw [h1]
      have := ih (by simp) hls
        (fun v0 hv0 hne' => hnot v0 (hv0.trans (List.suffix_cons a (b :: v''))) hne')
      rw [this]
      simp

/-- The initial-transition entry recursion started at the default
target's chain `w ++ x` emits exactly the segment `w` strictly below
the composite `x`, reversed to parent-to-child order; the composite's
own entry action is not among them. -/
theorem initEntrySeq_eq_of (x : List Nat) :
    ∀ w, w ≠ [] → initEntrySeq (w ++ x) x false = w.reverse := by
  intro w
  induction w with
  | nil => intro h; exact absurd rfl h
  | cons a w' ih =>
    intro _
    cases w' with
    | nil =>
      rw [List.singleton_append, initEntrySeq_cons]
      have h1 : initEntryStop x x = true := by
        simp [initEntryStop]
      rw [h1, initEntrySeq_stop, List.nil_append, List.reverse_singleton]
    | cons b w'' =>
      rw [List.cons_append, initEntrySeq_cons]
      have h1 : initEntryStop ((b :: w'') ++ x) x = false := by
        have hne : (b :: w'') ++ x ≠ x := by
          intro h
          have := congrArg List.length h
          simp at this
          omega
        simpa only [initEntryStop, decide_eq_false_iff_not] using hne
      rw [h1]
      rw [ih (by simp)]
      simp

/-! Claim theorems. -/

/-- Claim C1: for a transition whose source leaf has chain `u ++ a :: r`
and whose target has chain `v ++ a :: r`, with `a` the lowest common
ancestor (the segments `u` and `v` are nonempty and end in different
children of `a`, so neither state is an ancestor of the other and the
states are distinct), the exit actions run are exactly `u` — the
source's ancestor path truncated to the states strictly before the LCA,
in child-to-parent order — and the entry actions run by the transition
are exactly `v` reversed — the target's ancestor path strictly below
the LCA, in parent-to-child order ending at the target. -/
theorem tran_exit_entry_chains_lca (u v r : List Nat) (a : Nat)
    (hu : u ≠ []) (hv : v ≠ []) (hne : u.getLast? ≠ v.getLast?) :
    exitSeq (u ++ a :: r) (u ++ a :: r) (v ++ a :: r) false = u ∧
    entrySeq (v ++ a :: r) (u ++ a :: r)
      (entryStopInitial (u ++ a :: r) (v ++ a :: r)) = v.reverse ∧
    u ++ a :: r ≠ v ++ a :: r ∧
    ¬ (u ++ a :: r <:+ v ++ a :: r) ∧
    ¬ (v ++ a :: r <:+ u ++ a :: r) := by
  have key1 : ∀ u', u' <:+ u → u' ≠ [] → ¬ (u' ++ a :: r <:+ v ++ a :: r) := by
    intro u' hsuf hne' hcon
    have h2 : u' <:+ v := suffix_append_cancel hcon
    have e1 : u'.getLast? = u.getLast? := getLast?_eq_of_suffix hsuf hne'
    have e2 : u'.getLast? = v.getLast? := getLast?_eq_of_suffix h2 hne'
    exact hne (e1.symm.trans e2)
  have key2 : ∀ v', v' <:+ v → v' ≠ [] → ¬ (v' ++ a :: r <:+ u ++ a :: r) := by
    intro v' hsuf hne' hcon
    have h2 : v' <:+ u := suffix_append_cancel hcon
    have e1 : v'.getLast? = v.getLast? := getLast?_eq_of_suffix hsuf hne'
    have e2 : v'.getLast? = u.getLast? := getLast?_eq_of_suffix h2 hne'
    exact hne (e2.symm.trans e1)
  have hst : u ++ a :: r ≠ v ++ a :: r := by
    intro h
    exact hne (by rw [List.append_cancel_right h])
  have hts : ¬ (v ++ a :: r <:+ u ++ a :: r) := key2 v (List.suffix_refl v) hv
  have hstS : ¬ (u ++ a :: r <:+ v ++ a :: r) := key1 u (List.suffix_refl u) hu
  refine ⟨?_, ?_, hst, hstS, hts⟩
  · exact exitSeq_eq_of (u ++ a :: r) (v ++ a :: r) (a :: r) u hu
      ⟨u, rfl⟩ ⟨v, rfl⟩ hst key1
  · have h0 : entryStopInitial (u ++ a :: r) (v ++ a :: r) = false := by
      simp only [entryStopInitial, Bool.and_eq_false_iff, decide_eq_false_iff_not]
      exact Or.inl hts
    rw [h0]
    exact entrySeq_eq_of (u ++ a :: r) (a :: r) v hv ⟨u, rfl⟩ key2

/-- Witness for C1 on the concrete hierarchy of spec section 8:
source `A2 = [3,1,0]`, target `B' = [4,2,0]`, LCA the root `0`. -/
theorem tran_exit_entry_chains_lca_witness :
    exitSeq ([3, 1] ++ 0 :: []) ([3, 1] ++ 0 :: []) ([4, 2] ++ 0 :: []) false = [3, 1] ∧
    entrySeq ([4, 2] ++ 0 :: []) ([3, 1] ++ 0 :: [])
      (entryStopInitial ([3, 1] ++ 0 :: []) ([4, 2] ++ 0 :: [])) = [4, 2].reverse ∧
    [3, 1] ++ 0 :: [] ≠ [4, 2] ++ 0 :: [] ∧
    ¬ ([3, 1] ++ 0 :: [] <:+ [4, 2] ++ 0 :: []) ∧
    ¬ ([4, 2] ++ 0 :: [] <:+ [3, 1] ++ 0 :: []) :=
  tran_exit_entry_chains_lca [3, 1] [4, 2] [] 0 (by decide) (by decide) (by decide)

/-- Claim C2: a self-transition on a leaf with chain `x :: cb` runs
exactly one exit action and then one entry action, both of that leaf,
no other state's action, and the machine's current state ends at the
leaf. -/
theorem self_transition_exit_entry_once (M : Machine) (fuel : Nat) (x : Nat)
    (cb : List Nat) (hleaf : M.isLeaf (x :: cb) = true) (hf : 0 < fuel) :
    tranExec M fuel (x :: cb) (x :: cb) (x :: cb) =
      ([Act.exit x, Act.entry x], some (x :: cb)) := by
  have hex : exitSeq (x :: cb) (x :: cb) (x :: cb) false = [x] := by
    rw [exitSeq_cons]
    have hcb : cb ≠ x :: cb := fun h => List.cons_ne_self x cb h.symm
    have h1 : exitStop cb (x :: cb) (x :: cb) = true := by
      simp [exitStop, List.suffix_cons, hcb]
    rw [h1, exitSeq_stop]
  have hen : entrySeq (x :: cb) (x :: cb)
      (entryStopInitial (x :: cb) (x :: cb)) = [x] := by
    have h0 : entryStopInitial (x :: cb) (x :: cb) = false := by
      simp [entryStopInitial]
    rw [h0, entrySeq_cons]
    have h1 : entryStop cb (x :: cb) = true := by
      simp [entryStop, List.suffix_cons]
    rw [h1, entrySeq_stop, List.nil_append]
  cases fuel with
  | zero => exact absurd hf (lt_irrefl 0)
  | succ n =>
    have hd : descend M (n + 1) (x :: cb) = ([], some (x :: cb)) := by
      simp [descend, hleaf]
    simp [tranExec, hex, hen, hd]

/-- Witness for C2: self-transition on the leaf `[5,0]` of `M0`. -/
theorem self_transition_exit_entry_once_witness :
    tranExec M0 1 (5 :: [0]) (5 :: [0]) (5 :: [0]) =
      ([Act.exit 5, Act.entry 5], some (5 :: [0])) :=
  self_transition_exit_entry_once M0 1 5 [0] rfl (by decide)

/-- Claim C5: for a transition whose target `t` is a proper ancestor of
the source leaf `u ++ t` (the LCA is `t` itself), the transition exits
exactly the states `u` from the source up to but excluding the target,
runs no entry action before descent (the entry chain is empty), and
hands off to the initial descent seeded at `t` for the final current
leaf. -/
theorem ancestor_target_transition (M : Machine) (fuel : Nat) (u t : List Nat)
    (hu : u ≠ []) (_ht : t ≠ []) :
    tranExec M fuel (u ++ t) (u ++ t) t =
      (u.map Act.exit ++ (descend M fuel t).1.map Act.entry,
        (descend M fuel t).2) ∧
    entrySeq t (u ++ t) (entryStopInitial (u ++ t) t) = [] := by
  have hst : u ++ t ≠ t := by
    intro h
    have := congrArg List.length h
    simp at this
    exact hu this
  have hex : exitSeq (u ++ t) (u ++ t) t false = u := by
    refine exitSeq_eq_of (u ++ t) t t u hu ⟨u, rfl⟩ (List.suffix_refl t) hst ?_
    intro u' hsuf hne' hcon
    have := hcon.length_le
    simp at this
    exact hne' this
  have h0 : entryStopInitial (u ++ t) t = true := by
    simp only [entryStopInitial, Bool.and_eq_true, Bool.not_eq_true',
      decide_eq_true_eq, decide_eq_false_iff_not]
    exact ⟨⟨u, rfl⟩, hst⟩
  refine ⟨?_, by rw [h0, entrySeq_stop]⟩
  simp [tranExec, hex, h0, entrySeq_stop]

/-- Witness for C5: from the leaf `[3,0]` of `M0` to its ancestor, the
root `[0]`. -/
theorem ancestor_target_transition_witness :
    tranExec M0 1 ([3] ++ [0]) ([3] ++ [0]) [0] =
      ([3].map Act.exit ++ (descend M0 1 [0]).1.map Act.entry,
        (descend M0 1 [0]).2) ∧
    entrySeq [0] ([3] ++ [0]) (entryStopInitial ([3] ++ [0]) [0]) = [] :=
  ancestor_target_transition M0 1 [3] [0] (by decide) (by decide)

/-- Claim C3: an initial descent seeded at `x` with default-child chain
`ch` (empty when `x` is already a leaf) makes the chain's terminal leaf
the current state and runs exactly the entry actions of the states on
the chain below `x`, in parent-to-child order: for a leaf the trace is
empty and the leaf itself becomes current; for a composite the entry of
every composite on the default-child chain runs, `x`'s own entry action
is not among the actions run, and the terminal leaf becomes current. -/
theorem initial_descent_default_chain (M : Machine) (ch : List Nat) :
    ∀ x fuel, isChainB M x ch = true → ch.length < fuel →
      descend M fuel x = (ch, some (chainEnd x ch)) ∧
      M.isLeaf (chainEnd x ch) = true ∧
      (∀ x0, x0 ∉ ch → x0 ∉ (descend M fuel x).1) := by
  induction ch with
  | nil =>
    intro x fuel h hf
    have hL : M.isLeaf x = true := by simpa [isChainB] using h
    cases fuel with
    | zero => omega
    | succ n =>
      have hd : descend M (n + 1) x = ([], some x) := by simp [descend, hL]
      exact ⟨hd, hL, fun x0 _ => by simp [hd]⟩
  | cons a rest ih =>
    intro x fuel h hf
    have h' : (M.isLeaf x = false ∧ M.initOf x = a :: x) ∧
        isChainB M (a :: x) rest = true := by
      simpa [isChainB, Bool.and_eq_true, Bool.not_eq_true'] using h
    obtain ⟨⟨h1, h2⟩, h3⟩ := h'
    cases fuel with
    | zero => omega
    | succ n =>
      have hfn : rest.length < n := by
        simp only [List.length_cons] at hf
        omega
      have IH := ih (a :: x) n h3 hfn
      have hstep : descend M (n + 1) x =
          (initEntrySeq (M.initOf x) x false ++ (descend M n (M.initOf x)).1,
            (descend M n (M.initOf x)).2) := by
        simp [descend, h1]
      rw [h2] at hstep
      have hie : initEntrySeq (a :: x) x false = [a] := by
        simpa using initEntrySeq_eq_of x [a] (by simp)
      rw [hie, IH.1] at hstep
      have hch : chainEnd x (a :: rest) = chainEnd (a :: x) rest := rfl
      refine ⟨by rw [hstep]; simp [hch], by rw [hch]; exact IH.2.1, ?_⟩
      intro x0 hx0
      have : (descend M (n + 1) x).1 = a :: rest := by rw [hstep]; rfl
      rw [this]
      exact hx0

/-- Witness for C3: in `M1` the composite root `[0]` descends through
its default child to the leaf `[1,0]`. -/
theorem initial_descent_default_chain_witness :
    descend M1 2 [0] = ([1], some (chainEnd [0] [1])) ∧
    M1.isLeaf (chainEnd [0] [1]) = true ∧
    (∀ x0, x0 ∉ [1] → x0 ∉ (descend M1 2 [0]).1) :=
  initial_descent_default_chain M1 [1] [0] 2 rfl (by decide)

/-- Claim C4: the action trace of a transition is the exit chain
followed by the entry chain followed by the initial-descent entries, so
every exit action precedes every entry action, the entry chain precedes
the descent's entries, and the whole trace together with the final
current state is produced by the one `tranExec` step — there is no
point between the phases at which another dispatch could run. -/
theorem transition_phases_ordered (M : Machine) (fuel : Nat) (cur s t : List Nat) :
    (tranExec M fuel cur s t).1 =
      (exitSeq cur s t false).map Act.exit ++
        (entrySeq t s (entryStopInitial s t) ++ (descend M fuel t).1).map Act.entry ∧
    (tranExec M fuel cur s t).2 = (descend M fuel t).2 ∧
    ∀ i j, (∃ b, ((tranExec M fuel cur s t).1).get? i = some (Act.exit b)) →
      (∃ b, ((tranExec M fuel cur s t).1).get? j = some (Act.entry b)) →
      i < j := by
  have htr : (tranExec M fuel cur s t).1 =
      (exitSeq cur s t false).map Act.exit ++
        (entrySeq t s (entryStopInitial s t) ++ (descend M fuel t).1).map Act.entry := by
    simp [tranExec]
  refine ⟨htr, rfl, ?_⟩
  intro i j hi hj
  obtain ⟨bi, hi⟩ := hi
  obtain ⟨bj, hj⟩ := hj
  rw [htr] at hi hj
  have hilt : i < ((exitSeq cur s t false).map Act.exit).length := by
    by_contra hle
    rw [List.get?_append_right (Nat.le_of_not_lt hle), List.get?_map] at hi
    cases hne : (entrySeq t s (entryStopInitial s t) ++ (descend M fuel t).1).get?
        (i - ((exitSeq cur s t false).map Act.exit).length) with
    | none => rw [hne] at hi; cases hi
    | some y => rw [hne] at hi; simp at hi
  have hjge : ((exitSeq cur s t false).map Act.exit).length ≤ j := by
    by_contra hlt
    rw [List.get?_append (Nat.lt_of_not_le hlt), List.get?_map] at hj
    cases hne : (exitSeq cur s t false).get? j with
    | none => rw [hne] at hj; cases hj
    | some y => rw [hne] at hj; simp at hj
  omega

/-- Witness for C4: in the self-transition trace
`[exit 5, entry 5]` of `M0` the exit at index 0 precedes the entry at
index 1. -/
theorem transition_phases_ordered_witness : (0 : Nat) < 1 :=
  (transition_phases_ordered M0 1 [5, 0] [5, 0] [5, 0]).2.2 0 1 ⟨5, rfl⟩ ⟨5, rfl⟩

/-- Claim C6: when no state on the current leaf's ancestor chain maps
the event to a target, dispatch reports the event unhandled, runs no
exit or entry action, and leaves the current state unchanged. -/
theorem unhandled_event_no_effect (M : Machine) (fuel : Nat) (cur : List Nat)
    (e : Nat) (h : ∀ c, c <:+ cur → c ≠ [] → M.handlers c e = none) :
    dispatch M fuel cur e = (false, [], some cur) := by
  suffices H : ∀ ch, ch <:+ cur → dispatchRec M fuel cur e ch = (false, [], some cur) by
    exact H cur (List.suffix_refl cur)
  intro ch
  induction ch with
  | nil => intro _; rfl
  | cons x cb ih =>
    intro hsuf
    cases cb with
    | nil => rfl
    | cons y cb' =>
      have hh : M.handlers (x :: y :: cb') e = none := h _ hsuf (by simp)
      have hstep : dispatchRec M fuel cur e (x :: y :: cb') =
          dispatchRec M fuel cur e (y :: cb') := by
        simp [dispatchRec, hh]
      rw [hstep]
      exact ih ((List.suffix_cons x (y :: cb')).trans hsuf)

/-- Witness for C6: `M0` declares no handler at all, so event 9 from
leaf `[5,0]` is unhandled and has no effect. -/
theorem unhandled_event_no_effect_witness :
    dispatch M0 1 [5, 0] 9 = (false, [], some [5, 0]) :=
  unhandled_event_no_effect M0 1 [5, 0] 9 (fun _ _ _ => rfl)

/-- A successful descent always ends in a leaf: the only assignment to
the machine's current state is `LeafState::initial`. -/
theorem descend_snd_isLeaf (M : Machine) :
    ∀ fuel x c, (descend M fuel x).2 = some c → M.isLeaf c = true := by
  intro fuel
  induction fuel with
  | zero => intro x c h; simp [descend] at h
  | succ n ih =>
    intro x c h
    by_cases hx : M.isLeaf x = true
    · simp [descend, hx] at h
      exact h ▸ hx
    · rw [Bool.not_eq_true] at hx
      simp only [descend, hx, Bool.false_eq_true, if_false] at h
      exact ih (M.initOf x) c h

/-- The handler-chain walk can only leave the current state unchanged
or set it to the result of a descent, hence to a leaf. -/
theorem dispatchRec_snd_isLeaf (M : Machine) (fuel : Nat) (cur : List Nat)
    (e : Nat) (hcur : M.isLeaf cur = true) :
    ∀ ch b tr c, dispatchRec M fuel cur e ch = (b, tr, some c) →
      M.isLeaf c = true := by
  intro ch
  induction ch with
  | nil =>
    intro b tr c h
    have h3 := congrArg (fun p => p.2.2) h
    simp [dispatchRec] at h3
    exact h3 ▸ hcur
  | cons x cb ih =>
    intro b tr c h
    cases cb with
    | nil =>
      have h3 := congrArg (fun p => p.2.2) h
      simp [dispatchRec] at h3
      exact h3 ▸ hcur
    | cons y cb' =>
      cases hh : M.handlers (x :: y :: cb') e with
      | none =>
        have hstep : dispatchRec M fuel cur e (x :: y :: cb') =
            dispatchRec M fuel cur e (y :: cb') := by
          simp [dispatchRec, hh]
        rw [hstep] at h
        exact ih b tr c h
      | some tgt =>
        have hstep : dispatchRec M fuel cur e (x :: y :: cb') =
            (true, tranExec M fuel cur (x :: y :: cb') tgt) := by
          simp [dispatchRec, hh]
        rw [hstep] at h
        have h2 : (tranExec M fuel cur (x :: y :: cb') tgt).2 = some c := by
          have := congrArg (fun p => p.2.2) h
          simpa using this
        exact descend_snd_isLeaf M fuel tgt c h2

/-- Claim C7: the machine's current state is always a leaf — a
successful descent (which performs the only assignment to `state_`,
in `LeafState::initial`) ends in a leaf, and a dispatch from a leaf
that yields a new current state yields a leaf. -/
theorem current_state_always_leaf (M : Machine) (fuel : Nat) :
    (∀ x c, (descend M fuel x).2 = some c → M.isLeaf c = true) ∧
    (∀ cur e b tr c, M.isLeaf cur = true →
      dispatch M fuel cur e = (b, tr, some c) → M.isLeaf c = true) :=
  ⟨fun x c h => descend_snd_isLeaf M fuel x c h,
    fun cur e b tr c hcur h => dispatchRec_snd_isLeaf M fuel cur e hcur cur b tr c h⟩

/-- Witness for C7: starting `M1` by descending from its root yields
the leaf `[1,0]`. -/
theorem current_state_always_leaf_witness : M1.isLeaf [1, 0] = true :=
  (current_state_always_leaf M1 2).1 [0] [1, 0] rfl

/-- Every member of a state's ancestor path is at most as deep as the
state itself. -/
theorem StTy.depth_le_of_mem_path : ∀ s x : StTy, x ∈ s.path → x.depth ≤ s.depth := by
  intro s
  induction s with
  | top =>
    intro x hx
    simp [StTy.path] at hx
    simp [hx]
  | comp i b ihb =>
    intro x hx
    simp only [StTy.path, List.mem_cons] at hx
    rcases hx with rfl | hx
    · exact le_refl _
    · exact (ihb x hx).trans (Nat.le_succ _)
  | leaf i b ihb =>
    intro x hx
    simp only [StTy.path, List.mem_cons] at hx
    rcases hx with rfl | hx
    · exact le_refl _
    · exact (ihb x hx).trans (Nat.le_succ _)

/-- Claim C8: for every state of a hierarchy generated by the templates
of `src/hsm.h`, the ancestor path is a finite, duplicate-free list that
has length equal to the state's depth, begins with the state itself,
and ends at the top state — the unique state with no parent, terminal
element of every state's path. -/
theorem ancestor_path_shape (s x : StTy) :
    s.path.length = s.depth ∧
    s.path.head? = some s ∧
    s.path.getLast? = some StTy.top ∧
    s.path.Nodup ∧
    (StTy.base? x = none ↔ x = StTy.top) := by
  refine ⟨?_, ?_, ?_, ?_, ?_⟩
  · induction s with
    | top => rfl
    | comp i b ihb => simpa [StTy.path, StTy.depth] using ihb
    | leaf i b ihb => simpa [StTy.path, StTy.depth] using ihb
  · cases s <;> rfl
  · induction s with
    | top => rfl
    | comp i b ihb =>
      obtain ⟨y, ys, hy⟩ : ∃ y ys, b.path = y :: ys := by
        cases b <;> exact ⟨_, _, rfl⟩
      rw [StTy.path, hy, List.getLast?_cons_cons, ← hy]
      exact ihb
    | leaf i b ihb =>
      obtain ⟨y, ys, hy⟩ : ∃ y ys, b.path = y :: ys := by
        cases b <;> exact ⟨_, _, rfl⟩
      rw [StTy.path, hy, List.getLast?_cons_cons, ← hy]
      exact ihb
  · induction s with
    | top => simp [StTy.path]
    | comp i b ihb =>
      rw [StTy.path, List.nodup_cons]
      refine ⟨fun hmem => ?_, ihb⟩
      have := StTy.depth_le_of_mem_path b _ hmem
      simp [StTy.depth] at this
    | leaf i b ihb =>
      rw [StTy.path, List.nodup_cons]
      refine ⟨fun hmem => ?_, ihb⟩
      have := StTy.depth_le_of_mem_path b _ hmem
      simp [StTy.depth] at this
  · cases x <;> simp [StTy.base?]

/-! Lemmas on the fueled deterministic walk used by `finalize`. -/

/-- Equation lemma: no fuel, no result. -/
theorem walk_zero (next : Nat → Option (Option Nat)) (i : Nat) :
    walk next 0 i = none := rfl

/-- Equation lemma: a broken step fails. -/
theorem walk_succ_none {next : Nat → Option (Option Nat)} {i : Nat}
    (h : next i = none) (n : Nat) : walk next (n + 1) i = none := by
  simp [walk, h]

/-- Equation lemma: a terminal node ends the walk. -/
theorem walk_succ_term {next : Nat → Option (Option Nat)} {i : Nat}
    (h : next i = some none) (n : Nat) : walk next (n + 1) i = some [i] := by
  simp [walk, h]

/-- Equation lemma: a step to a failing tail fails. -/
theorem walk_succ_step_none {next : Nat → Option (Option Nat)} {i j n : Nat}
    (h : next i = some (some j)) (hw : walk next n j = none) :
    walk next (n + 1) i = none := by
  simp [walk, h, hw]

/-- Equation lemma: a step to a succeeding tail prepends the node. -/
theorem walk_succ_step_some {next : Nat → Option (Option Nat)} {i j n : Nat}
    {l : List Nat} (h : next i = some (some j)) (hw : walk next n j = some l) :
    walk next (n + 1) i = some (i :: l) := by
  simp [walk, h, hw]

/-- More fuel preserves a successful walk and its result. -/
theorem walk_mono (next : Nat → Option (Option Nat)) :
    ∀ n m i l, walk next n i = some l → n ≤ m → walk next m i = some l := by
  intro n
  induction n with
  | zero => intro m i l h _; cases h
  | succ k ih =>
    intro m i l h hnm
    obtain ⟨m', rfl⟩ : ∃ m', m = m' + 1 := ⟨m - 1, by omega⟩
    cases hni : next i with
    | none => rw [walk_succ_none hni] at h; cases h
    | some o =>
      cases o with
      | none =>
        rw [walk_succ_term hni] at h
        rw [walk_succ_term hni]
        exact h
      | some j =>
        cases hw : walk next k j with
        | none => rw [walk_succ_step_none hni hw] at h; cases h
        | some lj =>
          rw [walk_succ_step_some hni hw] at h
          rw [walk_succ_step_some hni (ih m' j lj hw (by omega))]
          exact h

/-- A successful walk needs no more fuel than the length of its result. -/
theorem walk_exact (next : Nat → Option (Option Nat)) :
    ∀ n i l, walk next n i = some l → walk next l.length i = some l := by
  intro n
  induction n with
  | zero => intro i l h; cases h
  | succ k ih =>
    intro i l h
    cases hni : next i with
    | none => rw [walk_succ_none hni] at h; cases h
    | some o =>
      cases o with
      | none =>
        rw [walk_succ_term hni] at h
        obtain rfl : [i] = l := Option.some.inj h
        exact walk_succ_term hni 0
      | some j =>
        cases hw : walk next k j with
        | none => rw [walk_succ_step_none hni hw] at h; cases h
        | some lj =>
          rw [walk_succ_step_some hni hw] at h
          obtain rfl : i :: lj = l := Option.some.inj h
          exact walk_succ_step_some hni (ih j lj hw)

/-- The walk is deterministic: any two successful results agree. -/
theorem walk_det (next : Nat → Option (Option Nat)) {n m i : Nat}
    {l l' : List Nat} (h : walk next n i = some l)
    (h' : walk next m i = some l') : l = l' := by
  have h1 := walk_mono next n (n + m) i l h (Nat.le_add_right n m)
  have h2 := walk_mono next m (n + m) i l' h' (Nat.le_add_left m n)
  rw [h1] at h2
  exact Option.some.inj h2

/-- Every node visited by a successful walk has its own successful walk,
a suffix of the whole one. -/
theorem walk_suffix_mem (next : Nat → Option (Option Nat)) :
    ∀ n i l, walk next n i = some l → ∀ x ∈ l,
      ∃ m lx, walk next m x = some lx ∧ lx <:+ l := by
  intro n
  induction n with
  | zero => intro i l h; cases h
  | succ k ih =>
    intro i l h x hx
    cases hni : next i with
    | none => rw [walk_succ_none hni] at h; cases h
    | some o =>
      cases o with
      | none =>
        rw [walk_succ_term hni] at h
        obtain rfl : [i] = l := Option.some.inj h
        obtain rfl : x = i := by simpa using hx
        exact ⟨k + 1, [x], walk_succ_term hni k, List.suffix_refl _⟩
      | some j =>
        cases hw : walk next k j with
        | none => rw [walk_succ_step_none hni hw] at h; cases h
        | some lj =>
          rw [walk_succ_step_some hni hw] at h
          obtain rfl : i :: lj = l := Option.some.inj h
          rcases List.mem_cons.mp hx with rfl | hx'
          · exact ⟨k + 1, x :: lj, walk_succ_step_some hni hw, List.suffix_refl _⟩
          · obtain ⟨m, lx, hm, hsuf⟩ := ih j lj hw x hx'
            exact ⟨m, lx, hm, hsuf.trans (List.suffix_cons i lj)⟩

/-- A successful walk never revisits a node: determinism would force
the walk from a revisited node to equal both the whole list and a
proper suffix of it. -/
theorem walk_nodup (next : Nat → Option (Option Nat)) :
    ∀ n i l, walk next n i = some l → l.Nodup := by
  intro n
  induction n with
  | zero => intro i l h; cases h
  | succ k ih =>
    intro i l h
    cases hni : next i with
    | none => rw [walk_succ_none hni] at h; cases h
    | some o =>
      cases o with
      | none =>
        rw [walk_succ_term hni] at h
        obtain rfl : [i] = l := Option.some.inj h
        simp
      | some j =>
        cases hw : walk next k j with
        | none => rw [walk_succ_step_none hni hw] at h; cases h
        | some lj =>
          rw [walk_succ_step_some hni hw] at h
          obtain rfl : i :: lj = l := Option.some.inj h
          refine List.nodup_cons.mpr ⟨fun hmem => ?_, ih j lj hw⟩
          obtain ⟨m, lx, hm, hsuf⟩ := walk_suffix_mem next k j lj hw i hmem
          have : lx = i :: lj := walk_det next hm (walk_succ_step_some hni hw)
          rw [this] at hsuf
          have := hsuf.length_le
          simp at this

/-- Every node visited by a successful walk has a defined step. -/
theorem walk_mem_next_isSome (next : Nat → Option (Option Nat)) :
    ∀ n i l, walk next n i = some l → ∀ x ∈ l, (next x).isSome = true := by
  intro n
  induction n with
  | zero => intro i l h; cases h
  | succ k ih =>
    intro i l h x hx
    cases hni : next i with
    | none => rw [walk_succ_none hni] at h; cases h
    | some o =>
      cases o with
      | none =>
        rw [walk_succ_term hni] at h
        obtain rfl : [i] = l := Option.some.inj h
        obtain rfl : x = i := by simpa using hx
        simp [hni]
      | some j =>
        cases hw : walk next k j with
        | none => rw [walk_succ_step_none hni hw] at h; cases h
        | some lj =>
          rw [walk_succ_step_some hni hw] at h
          obtain rfl : i :: lj = l := Option.some.inj h
          rcases List.mem_cons.mp hx with rfl | hx'
          · simp [hni]
          · exact ih j lj hw x hx'

/-- A duplicate-free list of members of `L` is no longer than `L`. -/
theorem length_le_of_nodup_subset {l L : List Nat} (hn : l.Nodup)
    (hs : ∀ x ∈ l, x ∈ L) : l.length ≤ L.length :=
  calc l.length = l.toFinset.card := (List.toFinset_card_of_nodup hn).symm
    _ ≤ L.toFinset.card := Finset.card_le_card (fun x hx => by
        simp only [List.mem_toFinset] at hx ⊢
        exact hs x hx)
    _ ≤ L.length := L.toFinset_card_le

/-- A walk whose steps are only defined on ids of `L` succeeds within
fuel `L.length` whenever it succeeds at all. -/
theorem walk_le_bound {next : Nat → Option (Option Nat)} {L : List Nat}
    (hdom : ∀ x, (next x).isSome = true → x ∈ L) :
    ∀ n i l, walk next n i = some l → walk next L.length i = some l := by
  intro n i l h
  have hnd := walk_nodup next n i l h
  have hsub : ∀ x ∈ l, x ∈ L :=
    fun x hx => hdom x (walk_mem_next_isSome next n i l h x hx)
  exact walk_mono next l.length L.length i l (walk_exact next n i l h)
    (length_le_of_nodup_subset hnd hsub)

/-- Lookup succeeds exactly on declared ids. -/
theorem lookupSt_isSome_iff (r : List StateDecl) (i : Nat) :
    (lookupSt r i).isSome = true ↔ i ∈ idsOf r := by
  constructor
  · intro h
    obtain ⟨d, hd⟩ := Option.isSome_iff_exists.mp h
    rw [lookupSt] at hd
    have h1 := List.find?_some hd
    have h2 : d ∈ r := List.mem_of_find?_eq_some hd
    have : d.sid = i := by simpa using h1
    exact this ▸ List.mem_map_of_mem (·.sid) h2
  · intro h
    obtain ⟨d, hd, hsid⟩ := List.mem_map.mp h
    cases hf : lookupSt r i with
    | some _ => rfl
    | none =>
      have := List.find?_eq_none.mp hf d hd
      simp [hsid] at this

/-- With unique ids, lookup of a declared state's id returns exactly
that declaration. -/
theorem lookupSt_of_nodup :
    ∀ r : List StateDecl, (idsOf r).Nodup → ∀ d ∈ r, lookupSt r d.sid = some d := by
  intro r
  induction r with
  | nil => intro _ d hd; cases hd
  | cons d0 tl ih =>
    intro hn d hd
    have hn0 : (d0.sid :: idsOf tl).Nodup := hn
    have hn' : (idsOf tl).Nodup ∧ d0.sid ∉ idsOf tl := by
      have := List.nodup_cons.mp hn0
      exact ⟨this.2, this.1⟩
    rcases List.mem_cons.mp hd with rfl | hdt
    · simp [lookupSt]
    · have hne : (d0.sid == d.sid) = false := by
        simp only [beq_eq_false_iff_ne, ne_eq]
        intro he
        exact hn'.2 (he ▸ List.mem_map_of_mem (·.sid) hdt)
      have : lookupSt (d0 :: tl) d.sid = lookupSt tl d.sid := by
        simp [lookupSt, List.find?_cons, hne]
      rw [this]
      exact ih hn'.1 d hdt

/-- A defined parent step happens only at declared ids. -/
theorem parentNext_isSome_mem (r : List StateDecl) (x : Nat)
    (h : (parentNext r x).isSome = true) : x ∈ idsOf r := by
  rw [parentNext] at h
  rw [Option.isSome_map'] at h
  exact (lookupSt_isSome_iff r x).mp h

/-- A defined child step happens only at declared ids. -/
theorem childNext_isSome_mem (r : List StateDecl) (x : Nat)
    (h : (childNext r x).isSome = true) : x ∈ idsOf r := by
  cases hf : lookupSt r x with
  | none =>
    rw [show childNext r x = none from by simp [childNext, hf]] at h
    cases h
  | some d => exact (lookupSt_isSome_iff r x).mp (by simp [hf])

/-- Claim C9 (spec-modelled: the registry and `finalize()` exist only
in the spec; in `src/hsm.h` misconfiguration is caught by the
compiler): `finalize` fails with `ConfigurationError` exactly when the
configuration is invalid — a reused id, an unknown parent id, a cycle
in the parent graph (an ancestor walk that never reaches a root), a
composite lacking a default child, or a default-child chain that does
not terminate in a leaf — and with an invalid configuration the engine
never starts. -/
theorem finalize_error_iff_invalid (r : List StateDecl) :
    (finalize r = Except.error ConfigError.configurationError ↔ Invalid r) ∧
    (Invalid r → startR r = none) := by
  have main : finalize r = Except.error ConfigError.configurationError ↔ Invalid r := by
    by_cases hnd : (idsOf r).Nodup
    · have hchk : finalize r = Except.error ConfigError.configurationError ↔
          ¬((∀ d ∈ r, (walk (parentNext r) r.length d.sid).isSome = true) ∧
            (∀ d ∈ r, d.isLeaf = true ∨
              (walk (childNext r) r.length d.sid).isSome = true)) := by
        rw [finalize]
        by_cases hc : (decide (idsOf r).Nodup
            && r.all (fun d => (walk (parentNext r) r.length d.sid).isSome)
            && r.all (fun d => d.isLeaf
                || (walk (childNext r) r.length d.sid).isSome)) = true
        · rw [if_pos hc]
          simp only [Bool.and_eq_true, List.all_eq_true, decide_eq_true_eq,
            Bool.or_eq_true] at hc
          constructor
          · intro h; cases h
          · intro h; exact absurd ⟨hc.1.2, hc.2⟩ h
        · rw [if_neg hc]
          constructor
          · intro _ hPC
            apply hc
            simp only [Bool.and_eq_true, List.all_eq_true, decide_eq_true_eq,
              Bool.or_eq_true]
            exact ⟨⟨hnd, hPC.1⟩, hPC.2⟩
          · intro _; rfl
      have hdomP : ∀ x, (parentNext r x).isSome = true → x ∈ idsOf r :=
        parentNext_isSome_mem r
      have hdomC : ∀ x, (childNext r x).isSome = true → x ∈ idsOf r :=
        childNext_isSome_mem r
      have hlen : (idsOf r).length = r.length := by simp [idsOf]
      have keyP : (¬ ∀ d ∈ r, (walk (parentNext r) r.length d.sid).isSome = true) ↔
          (UnknownParent r ∨ ParentChainBad r) := by
        constructor
        · intro hP
          push_neg at hP
          obtain ⟨d, hd, hw⟩ := hP
          have hwn : walk (parentNext r) r.length d.sid = none := by
            cases hcase : walk (parentNext r) r.length d.sid with
            | none => rfl
            | some l => rw [hcase] at hw; simp at hw
          refine Or.inr ⟨d, hd, fun n => ?_⟩
          cases hcase : walk (parentNext r) n d.sid with
          | none => rfl
          | some l =>
            have hb := walk_le_bound hdomP n d.sid l hcase
            rw [hlen] at hb
            rw [hb] at hwn
            cases hwn
        · intro h hP
          rcases h with hup | hpc
          · obtain ⟨d, hd, p, hp, hpm⟩ := hup
            have hiso := hP d hd
            have hlp : lookupSt r p = none := by
              cases hcase : lookupSt r p with
              | none => rfl
              | some d' =>
                exact absurd ((lookupSt_isSome_iff r p).mp (by simp [hcase])) hpm
            have hpfail : ∀ k, walk (parentNext r) k p = none := by
              intro k
              cases k with
              | zero => rfl
              | succ k' => exact walk_succ_none (by simp [parentNext, hlp]) k'
            have hstep : parentNext r d.sid = some (some p) := by
              rw [parentNext, lookupSt_of_nodup r hnd d hd]
              simp [hp]
            have hwn : walk (parentNext r) r.length d.sid = none := by
              cases hr : r.length with
              | zero => rfl
              | succ k => exact walk_succ_step_none hstep (hpfail k)
            rw [hwn] at hiso
            simp at hiso
          · obtain ⟨d, hd, hall⟩ := hpc
            have hiso := hP d hd
            rw [hall r.length] at hiso
            simp at hiso
      have keyC : (¬ ∀ d ∈ r, d.isLeaf = true ∨
            (walk (childNext r) r.length d.sid).isSome = true) ↔
          (MissingChild r ∨ ChildChainBad r) := by
        constructor
        · intro hC
          push_neg at hC
          obtain ⟨d, hd, hleaf', hw⟩ := hC
          have hnl : d.isLeaf = false := by simpa using hleaf'
          have hwn : walk (childNext r) r.length d.sid = none := by
            cases hcase : walk (childNext r) r.length d.sid with
            | none => rfl
            | some l => rw [hcase] at hw; simp at hw
          refine Or.inr ⟨d, hd, hnl, fun n => ?_⟩
          cases hcase : walk (childNext r) n d.sid with
          | none => rfl
          | some l =>
            have hb := walk_le_bound hdomC n d.sid l hcase
            rw [hlen] at hb
            rw [hb] at hwn
            cases hwn
        · intro h hC
          rcases h with hmc | hcc
          · obtain ⟨d, hd, hnl, hdc⟩ := hmc
            have hnext : childNext r d.sid = none := by
              simp [childNext, lookupSt_of_nodup r hnd d hd, hnl, hdc]
            have hfail : walk (childNext r) r.length d.sid = none := by
              cases hr : r.length with
              | zero => rfl
              | succ k => exact walk_succ_none hnext k
            rcases hC d hd with hL | hws
            · rw [hnl] at hL; cases hL
            · rw [hfail] at hws; simp at hws
          · obtain ⟨d, hd, hnl, hall⟩ := hcc
            rcases hC d hd with hL | hws
            · rw [hnl] at hL; cases hL
            · rw [hall r.length] at hws; simp at hws
      rw [hchk]
      unfold Invalid
      constructor
      · intro h
        rw [not_and_or] at h
        rcases h with h | h
        · rcases keyP.mp h with h' | h'
          · exact Or.inr (Or.inl h')
          · exact Or.inr (Or.inr (Or.inl h'))
        · rcases keyC.mp h with h' | h'
          · exact Or.inr (Or.inr (Or.inr (Or.inl h')))
          · exact Or.inr (Or.inr (Or.inr (Or.inr h')))
      · intro h
        rcases h with h | h | h | h | h
        · exact absurd hnd h
        · exact fun hPC => (keyP.mpr (Or.inl h)) hPC.1
        · exact fun hPC => (keyP.mpr (Or.inr h)) hPC.1
        · exact fun hPC => (keyC.mpr (Or.inl h)) hPC.2
        · exact fun hPC => (keyC.mpr (Or.inr h)) hPC.2
    · have hc : (decide (idsOf r).Nodup
          && r.all (fun d => (walk (parentNext r) r.length d.sid).isSome)
          && r.all (fun d => d.isLeaf
              || (walk (childNext r) r.length d.sid).isSome)) = false := by
        simp [hnd]
      constructor
      · intro _; exact Or.inl hnd
      · intro _
        rw [finalize, hc]
        rfl
  refine ⟨main, fun hi => ?_⟩
  simp [startR, main.mpr hi]

/-- Witness for C9: a registry with a duplicated id is invalid and the
engine does not start on it. -/
theorem finalize_error_iff_invalid_witness : startR rDup = none :=
  (finalize_error_iff_invalid rDup).2
    (Or.inl (show ¬ (idsOf rDup).Nodup by decide))

end Hsm

